import Mathlib

/-!
Verification development for the manifest annotator in pkg/gobin/mod.go.

The source operates on Go module manifests through golang.org/x/mod/modfile
(an external parser/formatter collaborator), and on paths through path.Join,
path.Clean and filepath.Rel from the Go standard library.  The embedding
below models:

* manifest bytes as a `Content` value: either bytes that parse to a
  `ModFile` tree, or bytes violating the grammar (the parser/formatter
  collaborator is modelled from its contract: the formatter serializes a
  tree back to bytes that re-parse to the same tree, losslessly);
* the Go standard-library path functions, re-implemented faithfully over
  `List Char` (strings are treated as rune sequences; the claims only
  exercise ASCII data, where Go byte indexing and rune indexing agree);
* file I/O as an `IOEnv` of injectable failures plus the current file
  `Content`, with the Go panic on out-of-range string slicing made
  explicit in an `Outcome` type.
-/

/-! ## Go path machinery: splitting on the separator -/

/-- The path component made of a single dot. -/
def dotC : List Char := ['.']

/-- The parent-directory path component. -/
def dotdotC : List Char := ['.', '.']

/-- Split a character list on the slash separator, exactly as Go's
separator scanning does: `n` separators yield `n+1` (possibly empty)
pieces. -/
def splitSlash : List Char → List (List Char)
  | [] => [[]]
  | c :: rest =>
    if c = '/' then [] :: splitSlash rest
    else
      match splitSlash rest with
      | [] => [[c]]
      | p :: ps => (c :: p) :: ps

/-- Join components with the slash separator (inverse of `splitSlash` on
nonempty separator-free component lists). -/
def joinComps : List (List Char) → List Char
  | [] => []
  | [p] => p
  | p :: q :: ps => p ++ '/' :: joinComps (q :: ps)

/-! ## Go `path.Clean` -/

/-- One step of Go's `path.Clean` element processing, on a stack whose head
is the most recently emitted component: empty and dot components are
dropped, dotdot pops a previous component when possible (for rooted paths
dotdot at the root is dropped; for relative paths it is kept when there is
nothing to pop), and any other component is pushed. -/
def cleanStack (rooted : Bool) : List (List Char) → List (List Char) → List (List Char)
  | st, [] => st
  | [], c :: cs =>
    if c = [] ∨ c = dotC then cleanStack rooted [] cs
    else if c = dotdotC then cleanStack rooted (if rooted then [] else [dotdotC]) cs
    else cleanStack rooted [c] cs
  | t :: st, c :: cs =>
    if c = [] ∨ c = dotC then cleanStack rooted (t :: st) cs
    else if c = dotdotC then
      (if rooted then cleanStack rooted st cs
       else if t = dotdotC then cleanStack rooted (dotdotC :: t :: st) cs
       else cleanStack rooted st cs)
    else cleanStack rooted (c :: t :: st) cs

/-- Cleaned component sequence of a component list. -/
def cleanComps (rooted : Bool) (cs : List (List Char)) : List (List Char) :=
  (cleanStack rooted [] cs).reverse

/-- Render a rootedness flag and a cleaned component list back to a path,
as Go's `path.Clean` does (an empty result prints as the dot path, an
empty rooted result prints as the bare separator). -/
def printPath (rooted : Bool) (comps : List (List Char)) : List Char :=
  if rooted then '/' :: joinComps comps
  else if comps = [] then ['.'] else joinComps comps

/-- Go's `path.Clean` over rune lists. -/
def pathClean : List Char → List Char
  | [] => ['.']
  | c :: rest =>
    if c = '/' then printPath true (cleanComps true (splitSlash rest))
    else printPath false (cleanComps false (splitSlash (c :: rest)))

/-- Go's `path.Join` restricted to two elements, which is how mod.go calls
it: empty elements are skipped, the rest joined with the separator, and
the result cleaned; all-empty input yields the empty path. -/
def pathJoin (a b : List Char) : List Char :=
  if a = [] then (if b = [] then [] else pathClean b)
  else pathClean (a ++ '/' :: b)

/-! ## Go `filepath.Rel` (unix separator) -/

/-- Component sequence of an already-cleaned path as Go's `filepath.Rel`
chunking sees it: the empty base contributes no components, a bare root
contributes none, and a rooted path contributes the components after the
root (the shared leading empty chunk of two rooted paths always matches
and is dropped here on both sides). -/
def relChunks : List Char → List (List Char)
  | [] => []
  | c :: rest =>
    if c = '/' then (if rest = [] then [] else splitSlash rest)
    else splitSlash (c :: rest)

/-- Core of Go's `filepath.Rel`: strip the longest common component
prefix; fail if the first remaining base component is the parent
component; otherwise go up once per remaining base component and then
down the remaining target components. -/
def relBuild : List (List Char) → List (List Char) → Except Unit (List (List Char))
  | [], ts => .ok ts
  | b :: bs, [] =>
    if b = dotdotC then .error () else .ok (List.replicate (bs.length + 1) dotdotC)
  | b :: bs, t :: ts =>
    if b = t then relBuild bs ts
    else if b = dotdotC then .error ()
    else .ok (List.replicate (bs.length + 1) dotdotC ++ t :: ts)

/-- Whether a path begins with the separator. -/
def slashed : List Char → Bool
  | [] => false
  | c :: _ => c = '/'

/-- Go's `filepath.Rel` with the unix separator: clean both paths, answer
the dot path for equal cleaned paths, refuse mixed rooted/relative
arguments, and otherwise build the relative component path. -/
def filepathRel (basepath targpath : List Char) : Except Unit (List Char) :=
  let base := pathClean basepath
  let targ := pathClean targpath
  if base = targ then .ok ['.']
  else
    let base1 := if base = ['.'] then [] else base
    if slashed base1 = slashed targ then
      match relBuild (relChunks base1) (relChunks targ) with
      | .error e => .error e
      | .ok comps => .ok (joinComps comps)
    else .error ()

/-! ## String wrappers -/

instance {ε α : Type} [DecidableEq ε] [DecidableEq α] : DecidableEq (Except ε α) := fun a b =>
  match a, b with
  | .ok x, .ok y =>
    if h : x = y then isTrue (by rw [h]) else isFalse (fun hh => h (by injection hh))
  | .error x, .error y =>
    if h : x = y then isTrue (by rw [h]) else isFalse (fun hh => h (by injection hh))
  | .ok _, .error _ => isFalse (fun hh => Except.noConfusion hh)
  | .error _, .ok _ => isFalse (fun hh => Except.noConfusion hh)

/-- `path.Clean` on strings. -/
def pathCleanS (s : String) : String := ⟨pathClean s.data⟩

/-- `path.Join` on strings. -/
def pathJoinS (a b : String) : String := ⟨pathJoin a.data b.data⟩

/-- `filepath.Rel` on strings. -/
def filepathRelS (a b : String) : Except Unit String :=
  match filepathRel a.data b.data with
  | .ok l => .ok ⟨l⟩
  | .error e => .error e

/-- Go string slicing `s[n:]`: defined when `n ≤ len s`, a run-time panic
otherwise. -/
def goSliceFrom (s : String) (n : Nat) : Option String :=
  if n ≤ s.data.length then some ⟨s.data.drop n⟩ else none

/-! ## The manifest model (the modfile collaborator's parse tree)

Modelled from the spec's collaborator contract (section 6): the parser
turns manifest bytes into a tree exposing the module declaration's
trailing-comment list and an ordered requirement list, each requirement
carrying a module path, an indirect flag and a trailing-comment list; the
formatter serializes the tree back losslessly.  `Content` identifies
manifest bytes with their parse outcome. -/

/-- A trailing comment token as stored by the modfile parser
(`modfile.Comment`): the token text includes the comment marker. -/
structure Comment where
  suffix : Bool
  token : String
deriving DecidableEq

/-- One requirement entry (`modfile.Require` plus its syntax line's
trailing comments). -/
structure Require where
  modPath : String
  indirect : Bool
  suffix : List Comment
deriving DecidableEq

/-- The parsed manifest: the module declaration line's trailing comments
and the ordered requirement list. -/
structure ModFile where
  moduleSuffix : List Comment
  require : List Require
deriving DecidableEq

/-- Manifest bytes, identified with their parse outcome: bytes that parse
to a tree, bytes violating the manifest grammar, or the zero-length file
left behind when a rewrite is interrupted after the truncate. -/
inductive Content where
  | wellFormed (m : ModFile)
  | malformed
  | truncated
deriving DecidableEq

/-- `modfile.Parse`, on `Content`. -/
def modfileParse : Content → Except Unit ModFile
  | .wellFormed m => .ok m
  | .malformed => .error ()
  | .truncated => .error ()

/-- The error taxonomy of mod.go: each constructor is one `return err`
site; `parseError true` is a parse failure wrapped with the contextual
"failed to parse" annotation; `wrapClose` is `errors.Wrapf` of an earlier
operational error with a close-time failure. -/
inductive GoErr where
  | openError
  | readError
  | parseError (wrapped : Bool)
  | alreadyAnnotated
  | emptyModule
  | relError
  | formatError
  | truncateError
  | seekError
  | writeError
  | closeError
  | wrapClose (orig : GoErr)
deriving DecidableEq

/-- Result of a Go function call: a value, an error, or a run-time panic. -/
inductive Outcome (α : Type) where
  | ok (a : α)
  | err (e : GoErr)
  | panicked
deriving DecidableEq

/-- The `metaComment` sentinel string of mod.go. -/
def metaComment : String :=
  "// Auto generated by https://github.com/bwplotka/gobin. DO NOT EDIT"

/-- The comment node `AddMetaToMod` appends to the module line. -/
def metaC : Comment := { suffix := true, token := metaComment }

/-- The sub-package comment node `AddMetaToMod` appends to the first
direct requirement line. -/
def subComment (sub : String) : Comment := { suffix := true, token := "// " ++ sub }

/-- The requirement scan of `ModDirectPackage` (mod.go lines 40-51): skip
indirect entries; on the first direct entry, slice the first trailing
comment's token from index 3 (a Go slice panic when the token is shorter)
and join it onto the module path. -/
def directLoop : List Require → Outcome String
  | [] => .ok ""
  | r :: rs =>
    if r.indirect then directLoop rs
    else
      match r.suffix with
      | [] => .ok r.modPath
      | c :: _ =>
        match goSliceFrom c.token 3 with
        | some t => .ok (pathJoinS r.modPath t)
        | none => .panicked

/-- `ModDirectPackage` (mod.go lines 28-52).  The argument is the result
of `readAllFileOrReader`: either the manifest bytes or a read failure. -/
def ModDirectPackage (readRes : Except GoErr Content) : Outcome String :=
  match readRes with
  | .error e => .err e
  | .ok c =>
    match modfileParse c with
    | .error _ => .err (.parseError false)
    | .ok m => directLoop m.require

/-- The module-line comment scan of `ModHasMeta` (mod.go lines 68-73). -/
def hasMetaLoop : List Comment → Bool
  | [] => false
  | c :: cs => if c.token = metaComment then true else hasMetaLoop cs

/-- `ModHasMeta` (mod.go lines 58-74); its parse failure is wrapped with
"failed to parse". -/
def ModHasMeta (readRes : Except GoErr Content) : Outcome Bool :=
  match readRes with
  | .error e => .err e
  | .ok c =>
    match modfileParse c with
    | .error _ => .err (.parseError true)
    | .ok m => .ok (hasMetaLoop m.moduleSuffix)

/-- Injectable failures of the file-system operations used by
`AddMetaToMod`, one flag per fallible call site. -/
structure IOEnv where
  openFails : Bool
  readFails : Bool
  formatFails : Bool
  truncateFails : Bool
  seekFails : Bool
  writeFails : Bool
  closeFails : Bool
deriving DecidableEq

/-- The requirement loop of `AddMetaToMod` (mod.go lines 116-149): skip
indirect entries; on the first direct entry, append a sub-package comment
when the module path differs from the target (failing if `filepath.Rel`
fails), then format, truncate, seek and write, returning from inside the
loop; reaching the end of the list yields the "empty module" error.
`skipped` accumulates the already-visited entries so the formatted tree
keeps the full requirement list. -/
def requireLoop (pkg : String) (env : IOEnv) (content : Content)
    (msuf : List Comment) (skipped : List Require) :
    List Require → Outcome Unit × Content
  | [] => (.err .emptyModule, content)
  | r :: rs =>
    if r.indirect then requireLoop pkg env content msuf (skipped ++ [r]) rs
    else
      match (if r.modPath = pkg then Except.ok r
             else
               match filepathRelS r.modPath pkg with
               | .error _ => Except.error GoErr.relError
               | .ok sub => Except.ok { r with suffix := r.suffix ++ [subComment sub] }) with
      | .error e => (.err e, content)
      | .ok r2 =>
        if env.formatFails then (.err .formatError, content)
        else if env.truncateFails then (.err .truncateError, content)
        else if env.seekFails then (.err .seekError, .truncated)
        else if env.writeFails then (.err .writeError, .truncated)
        else (.ok (), .wellFormed { moduleSuffix := msuf, require := skipped ++ r2 :: rs })

/-- The body of `AddMetaToMod` after the file is opened (mod.go lines
92-149): read, refuse an already-annotated manifest, parse, append the
meta comment to the module line, and run the requirement loop. -/
def addMetaBody (content : Content) (pkg : String) (env : IOEnv) :
    Outcome Unit × Content :=
  if env.readFails then (.err .readError, content)
  else
    match ModHasMeta (.ok content) with
    | .err e => (.err e, content)
    | .panicked => (.panicked, content)
    | .ok has =>
      if has then (.err .alreadyAnnotated, content)
      else
        match modfileParse content with
        | .error _ => (.err (.parseError true), content)
        | .ok m => requireLoop pkg env content (m.moduleSuffix ++ [metaC]) [] m.require

/-- The deferred close of `AddMetaToMod` (mod.go lines 83-91): a failing
close replaces a success and wraps an earlier error; a succeeding close
leaves the result untouched. -/
def closeWrap : Outcome Unit → Bool → Outcome Unit
  | res, false => res
  | .ok _, true => .err .closeError
  | .err e, true => .err (.wrapClose e)
  | .panicked, true => .panicked

/-- `AddMetaToMod` (mod.go lines 78-150) over the file's current content
and the I/O environment; returns the Go result together with the file
content after the call.  The deferred close is registered only after a
successful open. -/
def AddMetaToMod (content : Content) (pkg : String) (env : IOEnv) :
    Outcome Unit × Content :=
  if env.openFails then (.err .openError, content)
  else
    let res := addMetaBody content pkg env
    (closeWrap res.1 env.closeFails, res.2)

/-- The all-success I/O environment. -/
def okEnv : IOEnv :=
  { openFails := false, readFails := false, formatFails := false,
    truncateFails := false, seekFails := false, writeFails := false,
    closeFails := false }

/-- A direct requirement with no trailing comments. -/
def reqFoo : Require :=
  { modPath := "example.com/foo", indirect := false, suffix := [] }

/-- The same direct requirement with a pre-existing trailing comment. -/
def reqFooBar : Require :=
  { modPath := "example.com/foo", indirect := false,
    suffix := [{ suffix := true, token := "// bar" }] }

/-- An indirect requirement. -/
def reqBarIndirect : Require :=
  { modPath := "example.com/bar", indirect := true, suffix := [] }

/-- A second direct requirement, after the first. -/
def reqCDirect : Require :=
  { modPath := "example.com/c", indirect := false, suffix := [] }

/-- A manifest with exactly one direct requirement and no comments. -/
def mfOneDirect : ModFile := { moduleSuffix := [], require := [reqFoo] }

/-- A manifest whose single direct requirement already carries a trailing
comment. -/
def mfCommented : ModFile := { moduleSuffix := [], require := [reqFooBar] }

/-- An already-annotated manifest with no requirements. -/
def mfAnnotatedEmpty : ModFile := { moduleSuffix := [metaC], require := [] }

/-- An already-annotated manifest with one direct requirement. -/
def mfAnnotated : ModFile := { moduleSuffix := [metaC], require := [reqFoo] }

/-- A manifest whose only requirement is indirect. -/
def mfIndirectOnly : ModFile := { moduleSuffix := [], require := [reqBarIndirect] }

/-- A manifest with an indirect requirement, then two direct ones. -/
def mfMixed : ModFile :=
  { moduleSuffix := [], require := [reqBarIndirect, reqFoo, reqCDirect] }

/-- A path component that survives cleaning untouched: nonempty, not the
dot or parent component, and separator-free. -/
def goodComp (c : List Char) : Prop :=
  c ≠ [] ∧ c ≠ dotC ∧ c ≠ dotdotC ∧ '/' ∉ c

instance (c : List Char) : Decidable (goodComp c) := by
  unfold goodComp; infer_instance

/-- All components of a list are good. -/
def goodComps (l : List (List Char)) : Prop := ∀ c ∈ l, goodComp c

instance (l : List (List Char)) : Decidable (goodComps l) := by
  unfold goodComps; infer_instance

/-- The well-formedness of a requirement's module path that the modfile
parser guarantees (modelled from the spec's collaborator contract and the
module-path checks of the manifest grammar): a nonempty relative
slash-separated path whose components are nonempty and are not the dot or
parent components.  This is a superset of the module paths the Go parser
accepts. -/
def validModulePath (s : String) : Prop := goodComps (splitSlash s.data)

instance (s : String) : Decidable (validModulePath s) := by
  unfold validModulePath; infer_instance

example : pathCleanS "a//b/./c/.." = "a/b" := by decide
example : pathCleanS "/../../a" = "/a" := by decide
example : pathCleanS "" = "." := by decide
example : pathCleanS "a/../.." = ".." := by decide
example : pathJoinS "example.com/foo" "sub/pkg" = "example.com/foo/sub/pkg" := by decide
example : pathJoinS "a" "" = "a" := by decide
example : filepathRelS "example.com/foo" "example.com/foo/sub/pkg" = .ok "sub/pkg" := by decide
example : filepathRelS "a/b" "c/d" = .ok "../../c/d" := by decide
example : filepathRelS "a/b/../c" "a/b" = .ok "../b" := by decide
example : filepathRelS "../../a/b" "../../a/b/c/d" = .ok "c/d" := by decide
example : filepathRelS ".." "a" = .error () := by decide
example : filepathRelS "a" "/a" = .error () := by decide
example : filepathRelS "/a/b/c/d" "/a/b" = .ok "../.." := by decide
example : filepathRelS "." ".." = .ok ".." := by decide
example : filepathRelS "example.com/foo" "" = .ok "../../." := by decide

/-! ## Lemmas about splitting and joining -/

theorem splitSlash_cons (c : Char) (rest : List Char) :
    splitSlash (c :: rest) =
      if c = '/' then [] :: splitSlash rest
      else
        match splitSlash rest with
        | [] => [[c]]
        | p :: ps => (c :: p) :: ps := rfl

theorem joinComps_cons2 (p q : List Char) (ps : List (List Char)) :
    joinComps (p :: q :: ps) = p ++ '/' :: joinComps (q :: ps) := rfl

theorem splitSlash_ne_nil (l : List Char) : splitSlash l ≠ [] := by
  match l with
  | [] => simp [splitSlash]
  | c :: rest =>
    rw [splitSlash_cons]
    by_cases h : c = '/'
    · simp [h]
    · simp only [if_neg h]
      rcases hs : splitSlash rest with _ | ⟨p, ps⟩ <;> simp

theorem splitSlash_no_slash_mem : ∀ (l : List Char), ∀ p ∈ splitSlash l, '/' ∉ p
  | [] => by
    intro p hp
    simp only [splitSlash, List.mem_singleton] at hp
    subst hp; simp
  | c :: rest => by
    intro p hp
    rw [splitSlash_cons] at hp
    by_cases h : c = '/'
    · rw [if_pos h] at hp
      rcases List.mem_cons.mp hp with h1 | h1
      · subst h1; simp
      · exact splitSlash_no_slash_mem rest p h1
    · rw [if_neg h] at hp
      rcases hs : splitSlash rest with _ | ⟨q, qs⟩
      · exact absurd hs (splitSlash_ne_nil rest)
      · rw [hs] at hp
        rcases List.mem_cons.mp hp with h1 | h1
        · subst h1
          intro hmem
          rcases List.mem_cons.mp hmem with hc | hc
          · exact h hc.symm
          · exact splitSlash_no_slash_mem rest q
              (by rw [hs]; exact List.mem_cons_self q qs) hc
        · exact splitSlash_no_slash_mem rest p
            (by rw [hs]; exact List.mem_cons_of_mem q h1)

theorem splitSlash_of_no_slash (p : List Char) (h : '/' ∉ p) :
    splitSlash p = [p] := by
  induction p with
  | nil => simp [splitSlash]
  | cons c rest ih =>
    have hc : c ≠ '/' := by
      intro hc; exact h (by rw [hc]; exact List.mem_cons_self _ _)
    have hrest : '/' ∉ rest := fun hm => h (List.mem_cons_of_mem _ hm)
    rw [splitSlash_cons, if_neg hc, ih hrest]

theorem splitSlash_append (a b : List Char) :
    splitSlash (a ++ '/' :: b) = splitSlash a ++ splitSlash b := by
  induction a with
  | nil =>
    rw [List.nil_append, splitSlash_cons, if_pos rfl]
    rfl
  | cons c a ih =>
    rw [List.cons_append, splitSlash_cons, splitSlash_cons]
    by_cases h : c = '/'
    · rw [if_pos h, if_pos h, ih, List.cons_append]
    · rw [if_neg h, if_neg h, ih]
      rcases hs : splitSlash a with _ | ⟨p, ps⟩
      · exact absurd hs (splitSlash_ne_nil a)
      · simp

theorem joinComps_splitSlash (l : List Char) : joinComps (splitSlash l) = l := by
  induction l with
  | nil => simp [splitSlash, joinComps]
  | cons c rest ih =>
    rw [splitSlash_cons]
    by_cases h : c = '/'
    · rw [if_pos h]
      rcases hs : splitSlash rest with _ | ⟨p, ps⟩
      · exact absurd hs (splitSlash_ne_nil rest)
      · rw [joinComps_cons2, List.nil_append]
        rw [hs] at ih
        rw [ih, h]
    · rw [if_neg h]
      rcases hs : splitSlash rest with _ | ⟨p, ps⟩
      · exact absurd hs (splitSlash_ne_nil rest)
      · show joinComps ((c :: p) :: ps) = c :: rest
        rcases ps with _ | ⟨q, qs⟩
        · show c :: p = c :: rest
          rw [hs] at ih
          show c :: joinComps [p] = c :: rest
          rw [ih]
        · rw [joinComps_cons2, List.cons_append]
          rw [hs] at ih
          rw [joinComps_cons2] at ih
          rw [ih]

theorem splitSlash_joinComps (ps : List (List Char)) (hne : ps ≠ [])
    (hfree : ∀ p ∈ ps, '/' ∉ p) : splitSlash (joinComps ps) = ps := by
  induction ps with
  | nil => exact absurd rfl hne
  | cons p ps ih =>
    rcases ps with _ | ⟨q, qs⟩
    · simpa [joinComps] using splitSlash_of_no_slash p (hfree p (by simp))
    · rw [joinComps_cons2, splitSlash_append,
        splitSlash_of_no_slash p (hfree p (by simp)),
        ih (by simp) (fun r hr => hfree r (List.mem_cons_of_mem p hr))]
      rfl

theorem joinComps_append (M R : List (List Char)) (hM : M ≠ []) (hR : R ≠ []) :
    joinComps (M ++ R) = joinComps M ++ '/' :: joinComps R := by
  induction M with
  | nil => exact absurd rfl hM
  | cons m M ih =>
    rcases M with _ | ⟨n, Ms⟩
    · rcases R with _ | ⟨r, rs⟩
      · exact absurd rfl hR
      · rfl
    · show joinComps (m :: (n :: Ms ++ R)) = joinComps (m :: n :: Ms) ++ '/' :: joinComps R
      have h2 : n :: Ms ++ R = n :: (Ms ++ R) := rfl
      rw [h2, joinComps_cons2, ← h2, ih (by simp), joinComps_cons2,
        List.append_assoc, List.cons_append]

/-! ## Lemmas about cleaning -/

theorem printPath_false (comps : List (List Char)) :
    printPath false comps = if comps = [] then ['.'] else joinComps comps := rfl

theorem printPath_true (comps : List (List Char)) :
    printPath true comps = '/' :: joinComps comps := rfl

theorem pathClean_cons (c : Char) (rest : List Char) :
    pathClean (c :: rest) =
      if c = '/' then printPath true (cleanComps true (splitSlash rest))
      else printPath false (cleanComps false (splitSlash (c :: rest))) := rfl

theorem cleanStack_input_nil (rooted : Bool) (st : List (List Char)) :
    cleanStack rooted st [] = st := by cases st <;> rfl

theorem cleanStack_skip (rooted : Bool) (st : List (List Char)) (c : List Char)
    (cs : List (List Char)) (h : c = [] ∨ c = dotC) :
    cleanStack rooted st (c :: cs) = cleanStack rooted st cs := by
  cases st with
  | nil => show (if c = [] ∨ c = dotC then _ else _) = _; rw [if_pos h]
  | cons t st => show (if c = [] ∨ c = dotC then _ else _) = _; rw [if_pos h]

theorem cleanStack_push_one (st : List (List Char)) (c : List Char)
    (cs : List (List Char)) (hc : goodComp c) :
    cleanStack false st (c :: cs) = cleanStack false (c :: st) cs := by
  obtain ⟨h1, h2, h3, _⟩ := hc
  have hor : ¬(c = [] ∨ c = dotC) := fun h => h.elim h1 h2
  cases st with
  | nil =>
    show (if c = [] ∨ c = dotC then _ else _) = _
    rw [if_neg hor, if_neg h3]
  | cons t st =>
    show (if c = [] ∨ c = dotC then _ else _) = _
    rw [if_neg hor, if_neg h3]

theorem cleanStack_pop_one (st : List (List Char)) (t : List Char)
    (cs : List (List Char)) (ht : t ≠ dotdotC) :
    cleanStack false (t :: st) (dotdotC :: cs) = cleanStack false st cs := by
  show (if dotdotC = [] ∨ dotdotC = dotC then _ else _) = _
  rw [if_neg (by decide), if_pos rfl, if_neg (by decide), if_neg ht]

theorem cleanStack_dd_nil (cs : List (List Char)) :
    cleanStack false [] (dotdotC :: cs) = cleanStack false [dotdotC] cs := by
  show (if dotdotC = [] ∨ dotdotC = dotC then _ else _) = _
  rw [if_neg (by decide), if_pos rfl, if_neg (by decide)]

theorem cleanStack_dd_dd (st : List (List Char)) (cs : List (List Char)) :
    cleanStack false (dotdotC :: st) (dotdotC :: cs) =
      cleanStack false (dotdotC :: dotdotC :: st) cs := by
  show (if dotdotC = [] ∨ dotdotC = dotC then _ else _) = _
  rw [if_neg (by decide), if_pos rfl, if_neg (by decide), if_pos rfl]

theorem cleanStack_push (G : List (List Char)) (hG : ∀ c ∈ G, goodComp c) :
    ∀ (st rest : List (List Char)),
      cleanStack false st (G ++ rest) = cleanStack false (G.reverse ++ st) rest := by
  induction G with
  | nil => intro st rest; simp
  | cons c G ih =>
    intro st rest
    rw [List.cons_append, cleanStack_push_one st c _ (hG c (by simp)),
      ih (fun d hd => hG d (List.mem_cons_of_mem c hd)) (c :: st) rest]
    congr 1
    simp

theorem cleanStack_pop (n : Nat) :
    ∀ (st rest : List (List Char)), n ≤ st.length →
      (∀ c ∈ st.take n, goodComp c) →
      cleanStack false st (List.replicate n dotdotC ++ rest) =
        cleanStack false (st.drop n) rest := by
  induction n with
  | zero => intro st rest _ _; simp
  | succ n ih =>
    intro st rest hlen hgood
    rcases st with _ | ⟨t, st⟩
    · simp at hlen
    · have hg : goodComp t := hgood t (by rw [List.take_succ_cons]; simp)
      rw [List.replicate_succ, List.cons_append,
        cleanStack_pop_one st t _ hg.2.2.1, List.drop_succ_cons]
      exact ih st rest (Nat.le_of_succ_le_succ hlen)
        (fun c hc => hgood c (by rw [List.take_succ_cons]; exact List.mem_cons_of_mem t hc))

theorem cleanStack_dotdots (j : Nat) :
    ∀ (k : Nat) (rest : List (List Char)),
      cleanStack false (List.replicate k dotdotC) (List.replicate j dotdotC ++ rest) =
        cleanStack false (List.replicate (j + k) dotdotC) rest := by
  induction j with
  | zero => intro k rest; simp
  | succ j ih =>
    intro k rest
    rw [List.replicate_succ, List.cons_append]
    rcases k with _ | k
    · rw [List.replicate_zero, cleanStack_dd_nil]
      have h1 : [dotdotC] = List.replicate 1 dotdotC := rfl
      rw [h1, ih 1 rest]
    · rw [List.replicate_succ, cleanStack_dd_dd]
      have h1 : dotdotC :: dotdotC :: List.replicate k dotdotC =
          List.replicate (k + 2) dotdotC := rfl
      rw [h1, ih (k + 2) rest]
      congr 2
      omega

theorem cleanStack_shape :
    ∀ (cs Qr : List (List Char)) (j : Nat), (∀ c ∈ cs, '/' ∉ c) →
      (∀ c ∈ Qr, goodComp c) →
      ∃ Qr2 j2, cleanStack false (Qr ++ List.replicate j dotdotC) cs =
        Qr2 ++ List.replicate j2 dotdotC ∧ ∀ c ∈ Qr2, goodComp c := by
  intro cs
  induction cs with
  | nil => intro Qr j _ hQ; exact ⟨Qr, j, cleanStack_input_nil false _, hQ⟩
  | cons c cs ih =>
    intro Qr j hfree hQ
    have hfree' : ∀ d ∈ cs, '/' ∉ d := fun d hd => hfree d (List.mem_cons_of_mem c hd)
    by_cases h1 : c = [] ∨ c = dotC
    · rw [cleanStack_skip false _ c cs h1]
      exact ih Qr j hfree' hQ
    · by_cases h2 : c = dotdotC
      · subst h2
        rcases Qr with _ | ⟨q, Qr'⟩
        · rcases j with _ | j
          · rw [List.nil_append, List.replicate_zero, cleanStack_dd_nil]
            have h3 : [dotdotC] = [] ++ List.replicate 1 dotdotC := rfl
            rw [h3]
            exact ih [] 1 hfree' (by intro d hd; simp at hd)
          · rw [List.nil_append, List.replicate_succ, cleanStack_dd_dd]
            have h3 : dotdotC :: dotdotC :: List.replicate j dotdotC =
                [] ++ List.replicate (j + 2) dotdotC := rfl
            rw [h3]
            exact ih [] (j + 2) hfree' (by intro d hd; simp at hd)
        · rw [List.cons_append,
            cleanStack_pop_one _ q cs (hQ q (by simp)).2.2.1]
          exact ih Qr' j hfree' (fun d hd => hQ d (List.mem_cons_of_mem q hd))
      · have hc : goodComp c :=
          ⟨fun h => h1 (Or.inl h), fun h => h1 (Or.inr h), h2, hfree c (by simp)⟩
        rw [cleanStack_push_one _ c cs hc]
        have h3 : c :: (Qr ++ List.replicate j dotdotC) =
            (c :: Qr) ++ List.replicate j dotdotC := rfl
        rw [h3]
        refine ih (c :: Qr) j hfree' ?_
        intro d hd
        rcases List.mem_cons.mp hd with h4 | h4
        · rw [h4]; exact hc
        · exact hQ d h4

theorem cleanComps_shape (cs : List (List Char)) (hfree : ∀ c ∈ cs, '/' ∉ c) :
    ∃ j Q, cleanComps false cs = List.replicate j dotdotC ++ Q ∧ goodComps Q := by
  obtain ⟨Qr2, j2, heq, hg⟩ := cleanStack_shape cs [] 0 hfree (by intro d hd; simp at hd)
  refine ⟨j2, Qr2.reverse, ?_, ?_⟩
  · unfold cleanComps
    rw [show ([] : List (List Char)) ++ List.replicate 0 dotdotC = [] from rfl] at heq
    rw [heq, List.reverse_append, List.reverse_replicate]
  · intro d hd
    exact hg d (List.mem_reverse.mp hd)

theorem cleanComps_good (M : List (List Char)) (hM : goodComps M) :
    cleanComps false M = M := by
  unfold cleanComps
  have := cleanStack_push M hM [] []
  rw [List.append_nil] at this
  rw [this, cleanStack_input_nil, List.append_nil, List.reverse_reverse]

theorem pathClean_of_good (l : List Char) (h : goodComps (splitSlash l)) :
    pathClean l = l := by
  rcases l with _ | ⟨c, rest⟩
  · exact absurd rfl ((h [] (by simp [splitSlash])).1)
  · have hc : c ≠ '/' := by
      intro hc
      subst hc
      have : ([] : List Char) ∈ splitSlash ('/' :: rest) := by
        rw [splitSlash_cons, if_pos rfl]; simp
      exact (h [] this).1 rfl
    rw [pathClean_cons, if_neg hc, cleanComps_good _ h, printPath_false,
      if_neg (splitSlash_ne_nil _), joinComps_splitSlash]

theorem joinComps_good_head (m : List Char) (M' : List (List Char)) (hm : goodComp m) :
    ∃ ch t, joinComps (m :: M') = ch :: t ∧ ch ≠ '/' := by
  obtain ⟨hne, _, _, hfree⟩ := hm
  rcases m with _ | ⟨ch, m'⟩
  · exact absurd rfl hne
  · have hch : ch ≠ '/' := fun h => hfree (by rw [h]; exact List.mem_cons_self _ _)
    rcases M' with _ | ⟨q, qs⟩
    · exact ⟨ch, m', rfl, hch⟩
    · exact ⟨ch, m' ++ '/' :: joinComps (q :: qs), rfl, hch⟩

/-! ## Lemmas about the relative-path construction -/

theorem relBuild_nil_left (ts : List (List Char)) : relBuild [] ts = .ok ts := by
  cases ts <;> rfl

theorem relBuild_cons_nil (b : List Char) (bs : List (List Char)) :
    relBuild (b :: bs) [] =
      if b = dotdotC then .error ()
      else .ok (List.replicate (bs.length + 1) dotdotC) := rfl

theorem relBuild_cons_cons (b : List Char) (bs : List (List Char)) (t : List Char)
    (ts : List (List Char)) :
    relBuild (b :: bs) (t :: ts) =
      if b = t then relBuild bs ts
      else if b = dotdotC then .error ()
      else .ok (List.replicate (bs.length + 1) dotdotC ++ t :: ts) := rfl

theorem cleanStack_push_pop (G : List (List Char)) (hG : goodComps G)
    (st rest : List (List Char)) :
    cleanStack false st (G ++ (List.replicate G.length dotdotC ++ rest)) =
      cleanStack false st rest := by
  rw [cleanStack_push G hG st _]
  have hlen : G.length ≤ (G.reverse ++ st).length := by simp
  have htake : (G.reverse ++ st).take G.length = G.reverse := by
    rw [← List.length_reverse G]
    exact List.take_left _ _
  have hgoods : ∀ c ∈ (G.reverse ++ st).take G.length, goodComp c := by
    rw [htake]
    intro c hc
    exact hG c (List.mem_reverse.mp hc)
  rw [cleanStack_pop G.length _ rest hlen hgoods]
  have hdrop : (G.reverse ++ st).drop G.length = st := by
    rw [← List.length_reverse G]
    exact List.drop_left _ _
  rw [hdrop]

theorem relBuild_good :
    ∀ (M Q : List (List Char)), goodComps M → goodComps Q → M ≠ Q →
      ∃ R, relBuild M Q = .ok R ∧ R ≠ [] ∧ (∀ c ∈ R, '/' ∉ c) ∧
        ∀ st, cleanStack false st (M ++ R) = Q.reverse ++ st := by
  intro M
  induction M with
  | nil =>
    intro Q hM hQ hne
    rcases Q with _ | ⟨q, qs⟩
    · exact absurd rfl hne
    · refine ⟨q :: qs, relBuild_nil_left _, by simp,
        fun c hc => ((hQ c hc).2.2.2), ?_⟩
      intro st
      have h1 := cleanStack_push (q :: qs) hQ st []
      rw [List.append_nil] at h1
      rw [List.nil_append, h1, cleanStack_input_nil]
  | cons b bs ih =>
    intro Q hM hQ hne
    have hb : goodComp b := hM b (by simp)
    have hbs : goodComps bs := fun d hd => hM d (List.mem_cons_of_mem b hd)
    rcases Q with _ | ⟨t, ts⟩
    · refine ⟨List.replicate (bs.length + 1) dotdotC, ?_, by simp, ?_, ?_⟩
      · rw [relBuild_cons_nil, if_neg hb.2.2.1]
      · intro c hc
        rw [List.eq_of_mem_replicate hc]
        decide
      · intro st
        have h0 : List.replicate (bs.length + 1) dotdotC =
            List.replicate (b :: bs).length dotdotC ++ [] := by simp
        rw [h0, cleanStack_push_pop (b :: bs) hM st [], cleanStack_input_nil,
          List.reverse_nil, List.nil_append]
    · by_cases hbt : b = t
      · subst hbt
        have hne' : bs ≠ ts := by
          intro h; exact hne (by rw [h])
        obtain ⟨R, hR, hRne, hRfree, hRst⟩ :=
          ih ts hbs (fun d hd => hQ d (List.mem_cons_of_mem b hd)) hne'
        refine ⟨R, ?_, hRne, hRfree, ?_⟩
        · rw [relBuild_cons_cons, if_pos rfl, hR]
        · intro st
          have hcons : (b :: bs) ++ R = b :: (bs ++ R) := rfl
          rw [hcons, cleanStack_push_one st b _ hb, hRst (b :: st),
            List.reverse_cons, List.append_assoc, List.cons_append, List.nil_append]
      · refine ⟨List.replicate (bs.length + 1) dotdotC ++ t :: ts, ?_, by simp, ?_, ?_⟩
        · rw [relBuild_cons_cons, if_neg hbt, if_neg hb.2.2.1]
        · intro c hc
          rcases List.mem_append.mp hc with h1 | h1
          · rw [List.eq_of_mem_replicate h1]; decide
          · exact (hQ c h1).2.2.2
        · intro st
          have h0 : List.replicate (bs.length + 1) dotdotC =
              List.replicate (b :: bs).length dotdotC := rfl
          rw [h0, cleanStack_push_pop (b :: bs) hM st (t :: ts)]
          have h1 := cleanStack_push (t :: ts) hQ st []
          rw [List.append_nil] at h1
          rw [h1, cleanStack_input_nil]

theorem relBuild_dot (M : List (List Char)) (hM : goodComps M) (hne : M ≠ []) :
    relBuild M [dotC] = .ok (List.replicate M.length dotdotC ++ [dotC]) := by
  rcases M with _ | ⟨b, bs⟩
  · exact absurd rfl hne
  · have hb : goodComp b := hM b (by simp)
    rw [relBuild_cons_cons, if_neg hb.2.1, if_neg hb.2.2.1]
    rfl

theorem relBuild_ddhead (M : List (List Char)) (hM : goodComps M) (hne : M ≠ [])
    (P2 : List (List Char)) :
    relBuild M (dotdotC :: P2) =
      .ok (List.replicate M.length dotdotC ++ dotdotC :: P2) := by
  rcases M with _ | ⟨b, bs⟩
  · exact absurd rfl hne
  · have hb : goodComp b := hM b (by simp)
    rw [relBuild_cons_cons, if_neg hb.2.2.1, if_neg hb.2.2.1]
    rfl

theorem cleanComps_M_dot (M : List (List Char)) (hM : goodComps M) :
    cleanComps false (M ++ (List.replicate M.length dotdotC ++ [dotC])) = [] := by
  unfold cleanComps
  rw [cleanStack_push_pop M hM [] [dotC],
    cleanStack_skip false [] dotC [] (Or.inr rfl), cleanStack_input_nil,
    List.reverse_nil]

theorem cleanComps_M_dd (M : List (List Char)) (hM : goodComps M) (j : Nat)
    (Q : List (List Char)) (hQ : goodComps Q) :
    cleanComps false
        (M ++ (List.replicate M.length dotdotC ++ (List.replicate j dotdotC ++ Q))) =
      List.replicate j dotdotC ++ Q := by
  unfold cleanComps
  rw [cleanStack_push_pop M hM [] _]
  have h0 : ([] : List (List Char)) = List.replicate 0 dotdotC := rfl
  rw [h0, cleanStack_dotdots j 0 Q]
  have h1 := cleanStack_push Q hQ (List.replicate (j + 0) dotdotC) []
  rw [List.append_nil] at h1
  rw [h1, cleanStack_input_nil, List.reverse_append, List.reverse_reverse,
    List.reverse_replicate, Nat.add_zero]

/-! ## The join-of-rel round trip -/

theorem relChunks_cons (c : Char) (rest : List Char) :
    relChunks (c :: rest) =
      if c = '/' then (if rest = [] then [] else splitSlash rest)
      else splitSlash (c :: rest) := rfl

theorem filepathRel_def (a b : List Char) :
    filepathRel a b =
      (if pathClean a = pathClean b then .ok ['.']
       else
         if slashed (if pathClean a = ['.'] then [] else pathClean a) =
             slashed (pathClean b) then
           match relBuild (relChunks (if pathClean a = ['.'] then [] else pathClean a))
               (relChunks (pathClean b)) with
           | .error e => .error e
           | .ok comps => .ok (joinComps comps)
         else .error ()) := rfl

theorem pathClean_join (m1 : List Char) (M2 R : List (List Char))
    (hm1 : goodComp m1) (hfree : ∀ c ∈ (m1 :: M2) ++ R, '/' ∉ c) (hRne : R ≠ []) :
    pathClean (joinComps (m1 :: M2) ++ '/' :: joinComps R) =
      printPath false (cleanComps false ((m1 :: M2) ++ R)) := by
  rw [← joinComps_append (m1 :: M2) R (by simp) hRne]
  obtain ⟨ch, tl, hj, hch⟩ := joinComps_good_head m1 (M2 ++ R) hm1
  have hcons : (m1 :: M2) ++ R = m1 :: (M2 ++ R) := rfl
  rw [hcons, hj, pathClean_cons, if_neg hch, ← hj,
    splitSlash_joinComps (m1 :: (M2 ++ R)) (by simp)
      (by rw [← hcons]; exact hfree)]

theorem joinRel_roundtrip (ms pkg : List Char)
    (hgood : goodComps (splitSlash ms))
    (hclean : pathClean pkg = pkg) (hpkgne : pkg ≠ []) (hne : ms ≠ pkg) :
    ∀ sub, filepathRel ms pkg = .ok sub → pathJoin ms sub = pkg := by
  intro sub hrel
  rcases hsplit : splitSlash ms with _ | ⟨m1, M2⟩
  · exact absurd hsplit (splitSlash_ne_nil ms)
  have hM : goodComps (m1 :: M2) := by rw [← hsplit]; exact hgood
  have hm1 : goodComp m1 := hM m1 (by simp)
  have hms_join : joinComps (m1 :: M2) = ms := by
    rw [← hsplit]; exact joinComps_splitSlash ms
  obtain ⟨ch, tl, hms_eq0, hch⟩ := joinComps_good_head m1 M2 hm1
  have hms_eq : ms = ch :: tl := by rw [← hms_join, hms_eq0]
  have hms_ne_nil : ms ≠ [] := by rw [hms_eq]; simp
  have hclean_ms : pathClean ms = ms := pathClean_of_good ms hgood
  have hms_ne_dot : ms ≠ ['.'] := by
    intro h
    rw [h] at hsplit
    have h2 : splitSlash ['.'] = [dotC] := rfl
    rw [h2] at hsplit
    injection hsplit with h3 h4
    exact hm1.2.1 h3.symm
  have hslash_ms : slashed ms = false := by
    rw [hms_eq]; simp [slashed, hch]
  have hchunks_b : relChunks ms = m1 :: M2 := by
    rw [hms_eq, relChunks_cons, if_neg hch, ← hms_eq, hsplit]
  obtain ⟨c0, rest0, hpkg0⟩ : ∃ c0 rest0, pkg = c0 :: rest0 := by
    rcases pkg with _ | ⟨c, r⟩
    · exact absurd rfl hpkgne
    · exact ⟨c, r, rfl⟩
  rw [filepathRel_def, hclean_ms, hclean, if_neg hne, if_neg hms_ne_dot] at hrel
  by_cases hc0 : c0 = '/'
  · have hslash_pkg : slashed pkg = true := by
      rw [hpkg0]; simp [slashed, hc0]
    rw [hslash_ms, hslash_pkg, if_neg (by simp)] at hrel
    exact absurd hrel (by simp)
  · have hslash_pkg : slashed pkg = false := by
      rw [hpkg0]; simp [slashed, hc0]
    rw [hslash_ms, hslash_pkg, if_pos rfl, hchunks_b] at hrel
    have hcleanpkg : printPath false (cleanComps false (splitSlash pkg)) = pkg := by
      have h1 : pathClean (c0 :: rest0) =
          printPath false (cleanComps false (splitSlash (c0 :: rest0))) := by
        rw [pathClean_cons, if_neg hc0]
      rw [hpkg0, ← h1, ← hpkg0]
      exact hclean
    obtain ⟨j, Q, hCC, hQ⟩ :=
      cleanComps_shape (splitSlash pkg) (splitSlash_no_slash_mem pkg)
    by_cases hCCnil : cleanComps false (splitSlash pkg) = []
    · have hpkgdot : pkg = ['.'] := by
        rw [← hcleanpkg, hCCnil, printPath_false, if_pos rfl]
      have hchunks_t : relChunks pkg = [dotC] := by rw [hpkgdot]; rfl
      rw [hchunks_t, relBuild_dot (m1 :: M2) hM (by simp)] at hrel
      have hrel2 : (Except.ok (joinComps
          (List.replicate (m1 :: M2).length dotdotC ++ [dotC])) :
          Except Unit (List Char)) = .ok sub := hrel
      injection hrel2 with hsub
      unfold pathJoin
      rw [if_neg hms_ne_nil, ← hms_join, ← hsub]
      have hfreeMR : ∀ c ∈ (m1 :: M2) ++
          (List.replicate (m1 :: M2).length dotdotC ++ [dotC]), '/' ∉ c := by
        intro c hc
        rcases List.mem_append.mp hc with h | h
        · exact (hM c h).2.2.2
        · rcases List.mem_append.mp h with h1 | h1
          · rw [List.eq_of_mem_replicate h1]; decide
          · rw [List.mem_singleton.mp h1]; decide
      rw [pathClean_join m1 M2 _ hm1 hfreeMR (by simp),
        cleanComps_M_dot (m1 :: M2) hM, printPath_false, if_pos rfl]
      exact hpkgdot.symm
    · have hpkgjoin : joinComps (cleanComps false (splitSlash pkg)) = pkg := by
        conv_rhs => rw [← hcleanpkg]
        rw [printPath_false, if_neg hCCnil]
      have hCCfree : ∀ c ∈ cleanComps false (splitSlash pkg), '/' ∉ c := by
        rw [hCC]
        intro c hc
        rcases List.mem_append.mp hc with h | h
        · rw [List.eq_of_mem_replicate h]; decide
        · exact (hQ c h).2.2.2
      have hchunks_t : relChunks pkg = cleanComps false (splitSlash pkg) := by
        rw [hpkg0, relChunks_cons, if_neg hc0, ← hpkg0]
        conv_lhs => rw [← hpkgjoin]
        exact splitSlash_joinComps _ hCCnil hCCfree
      rw [hchunks_t, hCC] at hrel
      rcases j with _ | j'
      · rw [List.replicate_zero, List.nil_append] at hrel hCC
        have hMQ : (m1 :: M2) ≠ Q := by
          intro h
          apply hne
          rw [hCC] at hpkgjoin
          rw [← hms_join, h, hpkgjoin]
        obtain ⟨R, hR, hRne, hRfree, hRst⟩ := relBuild_good (m1 :: M2) Q hM hQ hMQ
        rw [hR] at hrel
        have hrel2 : (Except.ok (joinComps R) : Except Unit (List Char)) = .ok sub :=
          hrel
        injection hrel2 with hsub
        unfold pathJoin
        rw [if_neg hms_ne_nil, ← hms_join, ← hsub]
        have hfreeMR : ∀ c ∈ (m1 :: M2) ++ R, '/' ∉ c := by
          intro c hc
          rcases List.mem_append.mp hc with h | h
          · exact (hM c h).2.2.2
          · exact hRfree c h
        rw [pathClean_join m1 M2 R hm1 hfreeMR hRne]
        have hcc : cleanComps false ((m1 :: M2) ++ R) = Q := by
          unfold cleanComps
          rw [hRst [], List.append_nil, List.reverse_reverse]
        have hQne : Q ≠ [] := by rw [← hCC]; exact hCCnil
        rw [hcc, printPath_false, if_neg hQne, ← hCC]
        exact hpkgjoin
      · have hdd : List.replicate (j' + 1) dotdotC ++ Q =
            dotdotC :: (List.replicate j' dotdotC ++ Q) := rfl
        rw [hdd] at hrel
        rw [relBuild_ddhead (m1 :: M2) hM (by simp) _] at hrel
        have hrel2 : (Except.ok (joinComps
            (List.replicate (m1 :: M2).length dotdotC ++
              dotdotC :: (List.replicate j' dotdotC ++ Q))) :
            Except Unit (List Char)) = .ok sub := hrel
        injection hrel2 with hsub
        unfold pathJoin
        rw [if_neg hms_ne_nil, ← hms_join, ← hsub]
        have hfreeMR : ∀ c ∈ (m1 :: M2) ++
            (List.replicate (m1 :: M2).length dotdotC ++
              dotdotC :: (List.replicate j' dotdotC ++ Q)), '/' ∉ c := by
          intro c hc
          rcases List.mem_append.mp hc with h | h
          · exact (hM c h).2.2.2
          · rcases List.mem_append.mp h with h1 | h1
            · rw [List.eq_of_mem_replicate h1]; decide
            · rcases List.mem_cons.mp h1 with h2 | h2
              · rw [h2]; decide
              · rcases List.mem_append.mp h2 with h3 | h3
                · rw [List.eq_of_mem_replicate h3]; decide
                · exact (hQ c h3).2.2.2
        rw [pathClean_join m1 M2 _ hm1 hfreeMR (by simp)]
        have hdd2 : dotdotC :: (List.replicate j' dotdotC ++ Q) =
            List.replicate (j' + 1) dotdotC ++ Q := rfl
        rw [hdd2, cleanComps_M_dd (m1 :: M2) hM (j' + 1) Q hQ,
          printPath_false, if_neg (by rw [← hCC]; exact hCCnil), ← hCC]
        exact hpkgjoin

theorem joinRelS_roundtrip (ms pkg : String)
    (hvalid : validModulePath ms)
    (hclean : pathCleanS pkg = pkg) (hpkgne : pkg ≠ "") (hne : ms ≠ pkg) :
    ∀ sub, filepathRelS ms pkg = .ok sub → pathJoinS ms sub = pkg := by
  intro sub hrel
  have hcleand : pathClean pkg.data = pkg.data := congrArg String.data hclean
  have hpkgned : pkg.data ≠ [] := by
    intro h
    exact hpkgne (String.ext h)
  have hned : ms.data ≠ pkg.data := by
    intro h
    exact hne (String.ext h)
  unfold filepathRelS at hrel
  cases hfr : filepathRel ms.data pkg.data with
  | error e => rw [hfr] at hrel; exact absurd hrel (by simp)
  | ok l =>
    rw [hfr] at hrel
    have hsub : (⟨l⟩ : String) = sub := by
      injection hrel
    have hmain := joinRel_roundtrip ms.data pkg.data hvalid hcleand hpkgned hned l hfr
    apply String.ext
    show pathJoin ms.data sub.data = pkg.data
    rw [← hsub]
    exact hmain

/-! ## Computation lemmas for the mod.go model -/

theorem closeWrap_false (res : Outcome Unit) : closeWrap res false = res := by
  cases res <;> rfl

theorem closeWrap_true_ne_ok (res : Outcome Unit) : closeWrap res true ≠ .ok () := by
  cases res <;> simp [closeWrap]

theorem hasMetaLoop_cons (c : Comment) (cs : List Comment) :
    hasMetaLoop (c :: cs) =
      if c.token = metaComment then true else hasMetaLoop cs := rfl

theorem hasMetaLoop_append_meta (l : List Comment) :
    hasMetaLoop (l ++ [metaC]) = true := by
  induction l with
  | nil => rfl
  | cons c cs ih =>
    rw [List.cons_append, hasMetaLoop_cons]
    by_cases h : c.token = metaComment
    · rw [if_pos h]
    · rw [if_neg h, ih]

theorem hasMetaLoop_eq_true_iff (l : List Comment) :
    hasMetaLoop l = true ↔ ∃ c ∈ l, c.token = metaComment := by
  induction l with
  | nil => simp [hasMetaLoop]
  | cons c cs ih =>
    rw [hasMetaLoop_cons]
    by_cases h : c.token = metaComment
    · simp [if_pos h, h]
    · rw [if_neg h, ih]
      constructor
      · rintro ⟨d, hd, hdt⟩
        exact ⟨d, List.mem_cons_of_mem c hd, hdt⟩
      · rintro ⟨d, hd, hdt⟩
        rcases List.mem_cons.mp hd with h1 | h1
        · exact absurd (h1 ▸ hdt) h
        · exact ⟨d, h1, hdt⟩

theorem directLoop_cons (r : Require) (rs : List Require) :
    directLoop (r :: rs) =
      if r.indirect then directLoop rs
      else
        match r.suffix with
        | [] => .ok r.modPath
        | c :: _ =>
          match goSliceFrom c.token 3 with
          | some t => .ok (pathJoinS r.modPath t)
          | none => .panicked := rfl

theorem directLoop_skip (pre : List Require) (h : ∀ x ∈ pre, x.indirect = true) :
    ∀ rest, directLoop (pre ++ rest) = directLoop rest := by
  induction pre with
  | nil => intro rest; rw [List.nil_append]
  | cons r pre ih =>
    intro rest
    rw [List.cons_append, directLoop_cons, if_pos (h r (by simp)),
      ih (fun x hx => h x (List.mem_cons_of_mem r hx))]

theorem directLoop_all_indirect (l : List Require) (h : ∀ x ∈ l, x.indirect = true) :
    directLoop l = .ok "" := by
  have h1 := directLoop_skip l h []
  rw [List.append_nil] at h1
  rw [h1]
  rfl

theorem requireLoop_nil (pkg : String) (env : IOEnv) (content : Content)
    (msuf : List Comment) (skipped : List Require) :
    requireLoop pkg env content msuf skipped [] = (.err .emptyModule, content) := rfl

theorem requireLoop_cons (pkg : String) (env : IOEnv) (content : Content)
    (msuf : List Comment) (skipped : List Require) (r : Require) (rs : List Require) :
    requireLoop pkg env content msuf skipped (r :: rs) =
      if r.indirect then requireLoop pkg env content msuf (skipped ++ [r]) rs
      else
        match (if r.modPath = pkg then Except.ok r
               else
                 match filepathRelS r.modPath pkg with
                 | .error _ => Except.error GoErr.relError
                 | .ok sub =>
                   Except.ok { r with suffix := r.suffix ++ [subComment sub] }) with
        | .error e => (.err e, content)
        | .ok r2 =>
          if env.formatFails then (.err .formatError, content)
          else if env.truncateFails then (.err .truncateError, content)
          else if env.seekFails then (.err .seekError, .truncated)
          else if env.writeFails then (.err .writeError, .truncated)
          else (.ok (), .wellFormed { moduleSuffix := msuf, require := skipped ++ r2 :: rs }) := rfl

theorem requireLoop_skip (pkg : String) (env : IOEnv) (content : Content)
    (msuf : List Comment) :
    ∀ (pre skipped rest : List Require), (∀ x ∈ pre, x.indirect = true) →
      requireLoop pkg env content msuf skipped (pre ++ rest) =
        requireLoop pkg env content msuf (skipped ++ pre) rest := by
  intro pre
  induction pre with
  | nil => intro skipped rest _; rw [List.nil_append, List.append_nil]
  | cons r pre ih =>
    intro skipped rest h
    rw [List.cons_append, requireLoop_cons, if_pos (h r (by simp)),
      ih (skipped ++ [r]) rest (fun x hx => h x (List.mem_cons_of_mem r hx)),
      List.append_assoc]
    rfl

theorem addMeta_noclose (content : Content) (pkg : String) (env : IOEnv)
    (ho : env.openFails = false) (hc : env.closeFails = false) :
    AddMetaToMod content pkg env = addMetaBody content pkg env := by
  unfold AddMetaToMod
  rw [ho, hc]
  simp only [Bool.false_eq_true, if_false, closeWrap_false]

theorem addMeta_open_err (content : Content) (pkg : String) (env : IOEnv)
    (ho : env.openFails = true) :
    AddMetaToMod content pkg env = (.err .openError, content) := by
  unfold AddMetaToMod
  rw [ho]
  simp

theorem addMetaBody_read_err (content : Content) (pkg : String) (env : IOEnv)
    (hrd : env.readFails = true) :
    addMetaBody content pkg env = (.err .readError, content) := by
  unfold addMetaBody
  rw [hrd]
  simp

theorem addMetaBody_already (m : ModFile) (pkg : String) (env : IOEnv)
    (hrd : env.readFails = false) (hmeta : hasMetaLoop m.moduleSuffix = true) :
    addMetaBody (.wellFormed m) pkg env = (.err .alreadyAnnotated, .wellFormed m) := by
  unfold addMetaBody
  rw [hrd]
  have h1 : ModHasMeta (.ok (.wellFormed m)) = .ok (hasMetaLoop m.moduleSuffix) := rfl
  simp only [Bool.false_eq_true, if_false, h1, hmeta, if_true]

theorem addMetaBody_parse_err (pkg : String) (env : IOEnv)
    (hrd : env.readFails = false) :
    addMetaBody .malformed pkg env = (.err (.parseError true), .malformed) := by
  unfold addMetaBody
  rw [hrd]
  rfl

theorem addMetaBody_loop (m : ModFile) (pkg : String) (env : IOEnv)
    (hrd : env.readFails = false) (hmeta : hasMetaLoop m.moduleSuffix = false) :
    addMetaBody (.wellFormed m) pkg env =
      requireLoop pkg env (.wellFormed m) (m.moduleSuffix ++ [metaC]) [] m.require := by
  unfold addMetaBody
  rw [hrd]
  have h1 : ModHasMeta (.ok (.wellFormed m)) = .ok (hasMetaLoop m.moduleSuffix) := rfl
  simp only [Bool.false_eq_true, if_false, h1, hmeta]
  rfl

theorem requireLoop_commit (pkg : String) (env : IOEnv) (content : Content)
    (msuf : List Comment) (skipped : List Require) (r : Require) (rs : List Require)
    (hr : r.indirect = false)
    (hf : env.formatFails = false) (ht : env.truncateFails = false)
    (hs : env.seekFails = false) (hw : env.writeFails = false)
    (r2 : Require)
    (hstep : (if r.modPath = pkg then Except.ok r
              else
                match filepathRelS r.modPath pkg with
                | .error _ => Except.error GoErr.relError
                | .ok sub =>
                  Except.ok { r with suffix := r.suffix ++ [subComment sub] }) = .ok r2) :
    requireLoop pkg env content msuf skipped (r :: rs) =
      (.ok (), .wellFormed { moduleSuffix := msuf, require := skipped ++ r2 :: rs }) := by
  rw [requireLoop_cons, if_neg (by rw [hr]; simp), hstep]
  simp only [hf, ht, hs, hw, Bool.false_eq_true, if_false]

theorem addMeta_ok_inv (m : ModFile) (pkg : String) (env : IOEnv)
    (pre : List Require) (r : Require) (post : List Require)
    (hreq : m.require = pre ++ r :: post)
    (hpre : ∀ x ∈ pre, x.indirect = true)
    (hr : r.indirect = false)
    (hsucc : (AddMetaToMod (.wellFormed m) pkg env).1 = .ok ()) :
    hasMetaLoop m.moduleSuffix = false ∧
    ∃ r2, ((r.modPath = pkg ∧ r2 = r) ∨
        (r.modPath ≠ pkg ∧ ∃ sub, filepathRelS r.modPath pkg = .ok sub ∧
          r2 = { r with suffix := r.suffix ++ [subComment sub] })) ∧
      AddMetaToMod (.wellFormed m) pkg env =
        (.ok (), .wellFormed { moduleSuffix := m.moduleSuffix ++ [metaC],
                               require := pre ++ r2 :: post }) := by
  have ho : env.openFails = false := by
    cases hoo : env.openFails
    · rfl
    · rw [addMeta_open_err _ _ _ hoo] at hsucc
      simp at hsucc
  have hc : env.closeFails = false := by
    cases hcc : env.closeFails
    · rfl
    · exfalso
      have h1 : AddMetaToMod (.wellFormed m) pkg env =
          (closeWrap (addMetaBody (.wellFormed m) pkg env).1 env.closeFails,
           (addMetaBody (.wellFormed m) pkg env).2) := by
        unfold AddMetaToMod
        rw [ho]
        simp
      rw [h1, hcc] at hsucc
      exact closeWrap_true_ne_ok _ hsucc
  rw [addMeta_noclose _ _ _ ho hc] at hsucc
  have hrd : env.readFails = false := by
    cases hrr : env.readFails
    · rfl
    · rw [addMetaBody_read_err _ _ _ hrr] at hsucc
      simp at hsucc
  have hmeta : hasMetaLoop m.moduleSuffix = false := by
    cases hmm : hasMetaLoop m.moduleSuffix
    · rfl
    · rw [addMetaBody_already m _ _ hrd hmm] at hsucc
      simp at hsucc
  refine ⟨hmeta, ?_⟩
  rw [addMetaBody_loop m pkg env hrd hmeta, hreq,
    requireLoop_skip pkg env _ _ pre [] (r :: post) hpre, requireLoop_cons,
    if_neg (by rw [hr]; simp)] at hsucc
  cases hstep : (if r.modPath = pkg then Except.ok r
      else
        match filepathRelS r.modPath pkg with
        | .error _ => Except.error GoErr.relError
        | .ok sub =>
          Except.ok { r with suffix := r.suffix ++ [subComment sub] }) with
  | error e =>
    rw [hstep] at hsucc
    exact absurd (show (Outcome.err e : Outcome Unit) = .ok () from hsucc) (by simp)
  | ok r2 =>
    rw [hstep] at hsucc
    have hf : env.formatFails = false := by
      cases h : env.formatFails
      · rfl
      · simp [h] at hsucc
    have ht : env.truncateFails = false := by
      cases h : env.truncateFails
      · rfl
      · simp [h, hf] at hsucc
    have hs : env.seekFails = false := by
      cases h : env.seekFails
      · rfl
      · simp [h, hf, ht] at hsucc
    have hw : env.writeFails = false := by
      cases h : env.writeFails
      · rfl
      · simp [h, hf, ht, hs] at hsucc
    refine ⟨r2, ?_, ?_⟩
    · by_cases hmp : r.modPath = pkg
      · left
        refine ⟨hmp, ?_⟩
        rw [if_pos hmp] at hstep
        injection hstep with h2
        exact h2.symm
      · right
        refine ⟨hmp, ?_⟩
        rw [if_neg hmp] at hstep
        cases hfr : filepathRelS r.modPath pkg with
        | error e2 =>
          rw [hfr] at hstep
          exact absurd hstep (by simp)
        | ok sub =>
          rw [hfr] at hstep
          refine ⟨sub, rfl, ?_⟩
          injection hstep with h2
          exact h2.symm
    · rw [addMeta_noclose _ _ _ ho hc, addMetaBody_loop m pkg env hrd hmeta, hreq,
        requireLoop_skip pkg env _ _ pre [] (r :: post) hpre,
        requireLoop_commit pkg env _ _ _ r post hr hf ht hs hw r2 hstep]
      simp

theorem modDirect_wf (m : ModFile) :
    ModDirectPackage (.ok (.wellFormed m)) = directLoop m.require := rfl

theorem modHasMeta_wf (m : ModFile) :
    ModHasMeta (.ok (.wellFormed m)) = .ok (hasMetaLoop m.moduleSuffix) := rfl

theorem addMeta_already_full (m : ModFile) (pkg : String) (env : IOEnv)
    (ho : env.openFails = false) (hrd : env.readFails = false)
    (hc : env.closeFails = false) (hmeta : hasMetaLoop m.moduleSuffix = true) :
    AddMetaToMod (.wellFormed m) pkg env = (.err .alreadyAnnotated, .wellFormed m) := by
  rw [addMeta_noclose _ _ _ ho hc, addMetaBody_already m pkg env hrd hmeta]

theorem addMeta_empty_full (m : ModFile) (pkg : String) (env : IOEnv)
    (ho : env.openFails = false) (hrd : env.readFails = false)
    (hc : env.closeFails = false) (hmeta : hasMetaLoop m.moduleSuffix = false)
    (hall : ∀ x ∈ m.require, x.indirect = true) :
    AddMetaToMod (.wellFormed m) pkg env = (.err .emptyModule, .wellFormed m) := by
  rw [addMeta_noclose _ _ _ ho hc, addMetaBody_loop m pkg env hrd hmeta]
  have h1 : m.require = m.require ++ [] := by simp
  conv_lhs => rw [h1]
  rw [requireLoop_skip pkg env _ _ m.require [] [] hall, requireLoop_nil]

theorem addMeta_malformed_full (pkg : String) (env : IOEnv)
    (ho : env.openFails = false) (hrd : env.readFails = false)
    (hc : env.closeFails = false) :
    AddMetaToMod .malformed pkg env = (.err (.parseError true), .malformed) := by
  rw [addMeta_noclose _ _ _ ho hc, addMetaBody_parse_err pkg env hrd]

theorem goSliceFrom_subComment (sub : String) :
    goSliceFrom (subComment sub).token 3 = some sub := by
  have hdata : (subComment sub).token.data = '/' :: '/' :: ' ' :: sub.data := rfl
  unfold goSliceFrom
  rw [hdata, if_pos (by simp)]
  rfl

theorem requireLoop_close_indep (pkg : String) (env : IOEnv) (b : Bool)
    (content : Content) (msuf : List Comment) :
    ∀ (rs skipped : List Require),
      requireLoop pkg { env with closeFails := b } content msuf skipped rs =
        requireLoop pkg env content msuf skipped rs := by
  intro rs
  induction rs with
  | nil => intro skipped; rfl
  | cons r rs ih =>
    intro skipped
    rw [requireLoop_cons, requireLoop_cons]
    by_cases hr : r.indirect = true
    · simp only [if_pos hr]
      exact ih _
    · simp only [if_neg hr]

theorem addMetaBody_close_indep (content : Content) (pkg : String) (env : IOEnv)
    (b : Bool) :
    addMetaBody content pkg { env with closeFails := b } =
      addMetaBody content pkg env := by
  unfold addMetaBody
  by_cases h2 : env.readFails = true
  · simp only [if_pos h2]
  · simp only [if_neg h2]
    cases hmh : ModHasMeta (.ok content) with
    | ok has =>
      by_cases h3 : has = true
      · simp only [if_pos h3]
      · simp only [if_neg h3]
        cases hp : modfileParse content with
        | error e => rfl
        | ok mm => exact requireLoop_close_indep pkg env b _ _ mm.require []
    | err e => rfl
    | panicked => rfl

theorem addMeta_close_split (content : Content) (pkg : String) (env : IOEnv)
    (ho : env.openFails = false) (b : Bool) :
    AddMetaToMod content pkg { env with closeFails := b } =
      (closeWrap (addMetaBody content pkg env).1 b,
       (addMetaBody content pkg env).2) := by
  show (if env.openFails = true then ((Outcome.err GoErr.openError, content) :
        Outcome Unit × Content)
      else (closeWrap (addMetaBody content pkg { env with closeFails := b }).1 b,
            (addMetaBody content pkg { env with closeFails := b }).2)) =
    (closeWrap (addMetaBody content pkg env).1 b, (addMetaBody content pkg env).2)
  rw [addMetaBody_close_indep content pkg env b, ho]
  simp

/-! ## The claims -/

/-- C2: for every manifest whose module-declaration line already carries
the meta-marker trailing comment, `AddMetaToMod` fails with the
already-annotated error and the file content is left unchanged
byte-for-byte — the failure occurs before any truncate or write, so the
theorem holds for arbitrary format/truncate/seek/write failure
injections. -/
theorem C2_already_annotated (m : ModFile) (pkg : String) (env : IOEnv)
    (hmeta : ∃ c ∈ m.moduleSuffix, c.token = metaComment)
    (ho : env.openFails = false) (hrd : env.readFails = false)
    (hc : env.closeFails = false) :
    AddMetaToMod (.wellFormed m) pkg env = (.err .alreadyAnnotated, .wellFormed m) :=
  addMeta_already_full m pkg env ho hrd hc ((hasMetaLoop_eq_true_iff _).mpr hmeta)

/-- Claim C2, witnessed at a concrete annotated manifest. -/
theorem C2_witness :
    AddMetaToMod (.wellFormed mfAnnotated) "example.com/foo" okEnv =
      (.err .alreadyAnnotated, .wellFormed mfAnnotated) :=
  C2_already_annotated mfAnnotated "example.com/foo" okEnv
    ⟨metaC, by decide, rfl⟩ rfl rfl rfl

/-- C3 (amended): for every well-formed manifest with zero non-indirect
requirements *whose module line does not already carry the meta marker*,
`AddMetaToMod` fails with the empty-module (structural) error leaving the
content unchanged, and `ModDirectPackage` returns the empty string with
no error.  The original claim omitted the no-marker condition; an
annotated empty manifest fails with the already-annotated error
instead. -/
theorem C3_empty_module (m : ModFile) (pkg : String) (env : IOEnv)
    (hall : ∀ x ∈ m.require, x.indirect = true)
    (hmeta : ¬∃ c ∈ m.moduleSuffix, c.token = metaComment)
    (ho : env.openFails = false) (hrd : env.readFails = false)
    (hc : env.closeFails = false) :
    AddMetaToMod (.wellFormed m) pkg env = (.err .emptyModule, .wellFormed m) ∧
    ModDirectPackage (.ok (.wellFormed m)) = .ok "" := by
  have hmetaB : hasMetaLoop m.moduleSuffix = false := by
    cases h : hasMetaLoop m.moduleSuffix
    · rfl
    · exact absurd ((hasMetaLoop_eq_true_iff _).mp h) hmeta
  refine ⟨addMeta_empty_full m pkg env ho hrd hc hmetaB hall, ?_⟩
  rw [modDirect_wf, directLoop_all_indirect m.require hall]

/-- Claim C3 as stated is false: an already-annotated manifest with zero
non-indirect requirements makes `AddMetaToMod` fail with the
already-annotated error, not the empty-module error. -/
theorem C3_counterexample :
    (∀ x ∈ mfAnnotatedEmpty.require, x.indirect = true) ∧
    AddMetaToMod (.wellFormed mfAnnotatedEmpty) "example.com/foo" okEnv =
      (.err .alreadyAnnotated, .wellFormed mfAnnotatedEmpty) ∧
    (AddMetaToMod (.wellFormed mfAnnotatedEmpty) "example.com/foo" okEnv).1 ≠
      .err .emptyModule := by decide

/-- Claim C3 (amended), witnessed at a concrete indirect-only manifest. -/
theorem C3_witness :
    AddMetaToMod (.wellFormed mfIndirectOnly) "example.com/foo" okEnv =
      (.err .emptyModule, .wellFormed mfIndirectOnly) ∧
    ModDirectPackage (.ok (.wellFormed mfIndirectOnly)) = .ok "" :=
  C3_empty_module mfIndirectOnly "example.com/foo" okEnv
    (by decide) (by decide) rfl rfl rfl

/-- C4: malformed manifest bytes make `ModDirectPackage`, `ModHasMeta`
and `AddMetaToMod` all fail with a parse error (the latter two carry the
contextual "failed to parse" wrapping), rather than crashing or silently
returning an empty/false/success result; `AddMetaToMod` leaves the bytes
unchanged. -/
theorem C4_parse_error (pkg : String) (env : IOEnv)
    (ho : env.openFails = false) (hrd : env.readFails = false)
    (hc : env.closeFails = false) :
    ModDirectPackage (.ok .malformed) = .err (.parseError false) ∧
    ModHasMeta (.ok .malformed) = .err (.parseError true) ∧
    AddMetaToMod .malformed pkg env = (.err (.parseError true), .malformed) :=
  ⟨rfl, rfl, addMeta_malformed_full pkg env ho hrd hc⟩

/-- Claim C4, witnessed at the all-success environment. -/
theorem C4_witness :
    ModDirectPackage (.ok .malformed) = .err (.parseError false) ∧
    ModHasMeta (.ok .malformed) = .err (.parseError true) ∧
    AddMetaToMod .malformed "example.com/foo" okEnv =
      (.err (.parseError true), .malformed) :=
  C4_parse_error "example.com/foo" okEnv rfl rfl rfl

/-- C5: for every well-formed manifest, `ModHasMeta` returns true exactly
when some trailing comment of the module-declaration line equals the
fixed meta-marker sentinel string (string equality, so no partial or
substring match counts). -/
theorem C5_hasMeta_iff (m : ModFile) :
    ModHasMeta (.ok (.wellFormed m)) = .ok true ↔
      ∃ c ∈ m.moduleSuffix, c.token = metaComment := by
  rw [modHasMeta_wf]
  constructor
  · intro h
    have h2 : hasMetaLoop m.moduleSuffix = true := by injection h
    exact (hasMetaLoop_eq_true_iff _).mp h2
  · intro h
    rw [(hasMetaLoop_eq_true_iff _).mpr h]

/-- Claim C5, witnessed at a concrete annotated manifest. -/
theorem C5_witness :
    ModHasMeta (.ok (.wellFormed mfAnnotated)) = .ok true :=
  (C5_hasMeta_iff mfAnnotated).mpr ⟨metaC, by decide, rfl⟩

/-- C10: on a well-formed manifest whose first non-indirect requirement
carries at least one trailing comment, `ModDirectPackage` decodes the
suffix from the *first* trailing comment only, slicing its token from
index 3; when that token is shorter than 3 characters the Go slice is out
of range and the function panics, otherwise it returns the join of the
module path and the sliced payload. -/
theorem C10_short_token_panics (m : ModFile) (pre : List Require) (r : Require)
    (post : List Require) (c : Comment) (cs : List Comment)
    (hreq : m.require = pre ++ r :: post)
    (hpre : ∀ x ∈ pre, x.indirect = true)
    (hr : r.indirect = false)
    (hsuf : r.suffix = c :: cs) :
    (c.token.data.length < 3 →
      ModDirectPackage (.ok (.wellFormed m)) = .panicked) ∧
    (3 ≤ c.token.data.length →
      ModDirectPackage (.ok (.wellFormed m)) =
        .ok (pathJoinS r.modPath ⟨c.token.data.drop 3⟩)) := by
  rw [modDirect_wf, hreq, directLoop_skip pre hpre, directLoop_cons,
    if_neg (by rw [hr]; simp), hsuf]
  constructor
  · intro hlen
    show (match goSliceFrom c.token 3 with
          | some t => Outcome.ok (pathJoinS r.modPath t)
          | none => Outcome.panicked) = Outcome.panicked
    have hgs : goSliceFrom c.token 3 = none := by
      unfold goSliceFrom
      rw [if_neg (by omega)]
    rw [hgs]
  · intro hlen
    show (match goSliceFrom c.token 3 with
          | some t => Outcome.ok (pathJoinS r.modPath t)
          | none => Outcome.panicked) =
      Outcome.ok (pathJoinS r.modPath ⟨c.token.data.drop 3⟩)
    have hgs : goSliceFrom c.token 3 = some ⟨c.token.data.drop 3⟩ := by
      unfold goSliceFrom
      rw [if_pos hlen]
    rw [hgs]

/-- Claim C10, witnessed: a first trailing comment whose token is the
bare comment marker (2 characters) makes `ModDirectPackage` panic. -/
theorem C10_witness :
    ModDirectPackage (.ok (.wellFormed
      { moduleSuffix := [],
        require := [{ modPath := "example.com/foo", indirect := false,
                      suffix := [{ suffix := true, token := "//" }] }] })) =
      .panicked :=
  (C10_short_token_panics _ []
    { modPath := "example.com/foo", indirect := false,
      suffix := [{ suffix := true, token := "//" }] }
    [] { suffix := true, token := "//" } [] rfl (by decide) rfl rfl).1 (by decide)

/-- C1 (amended): for every manifest containing exactly one requirement
not marked indirect *whose line carries no trailing comments* and whose
module-declaration line carries no meta marker, after a successful
`AddMetaToMod` the rewritten file satisfies `ModHasMeta` and
`ModDirectPackage` returns exactly the target package, *for every clean
nonempty target package path* (`path.Clean pkg = pkg`, `pkg ≠ ""`).  The
requirement's module path is assumed well formed, as the manifest parser
guarantees.  The original claim, quantified over every `pkg` and allowing
pre-existing requirement-line comments, is refuted by
`C1_counterexample`. -/
theorem C1_roundtrip (m : ModFile) (pkg : String) (env : IOEnv)
    (pre : List Require) (r : Require) (post : List Require)
    (hreq : m.require = pre ++ r :: post)
    (hpre : ∀ x ∈ pre, x.indirect = true)
    (hr : r.indirect = false)
    (hpost : ∀ x ∈ post, x.indirect = true)
    (hsuf : r.suffix = [])
    (hvalid : validModulePath r.modPath)
    (hclean : pathCleanS pkg = pkg) (hpkg : pkg ≠ "")
    (hsucc : (AddMetaToMod (.wellFormed m) pkg env).1 = .ok ()) :
    ModHasMeta (.ok (AddMetaToMod (.wellFormed m) pkg env).2) = .ok true ∧
    ModDirectPackage (.ok (AddMetaToMod (.wellFormed m) pkg env).2) = .ok pkg := by
  obtain ⟨hmeta, r2, hchar, heq⟩ := addMeta_ok_inv m pkg env pre r post hreq hpre hr hsucc
  rw [heq]
  constructor
  · rw [modHasMeta_wf, hasMetaLoop_append_meta]
  · rw [modDirect_wf, directLoop_skip pre hpre, directLoop_cons]
    rcases hchar with ⟨hmp, h2⟩ | ⟨hmp, sub, hrel, h2⟩
    · rw [h2, if_neg (by rw [hr]; simp), hsuf]
      show Outcome.ok r.modPath = Outcome.ok pkg
      rw [hmp]
    · rw [h2, if_neg (by simp [hr]), hsuf, List.nil_append]
      show (match goSliceFrom (subComment sub).token 3 with
            | some t => Outcome.ok (pathJoinS r.modPath t)
            | none => Outcome.panicked) = Outcome.ok pkg
      rw [goSliceFrom_subComment]
      show Outcome.ok (pathJoinS r.modPath sub) = Outcome.ok pkg
      rw [joinRelS_roundtrip r.modPath pkg hvalid hclean hpkg hmp sub hrel]

/-- Claim C1 as stated is false for the empty target package path: on a
one-direct-requirement manifest `AddMetaToMod` succeeds with `pkg = ""`,
but `ModDirectPackage` afterwards returns `"."` rather than `""`. -/
theorem C1_counterexample :
    (AddMetaToMod (.wellFormed mfOneDirect) "" okEnv).1 = .ok () ∧
    ModDirectPackage (.ok (AddMetaToMod (.wellFormed mfOneDirect) "" okEnv).2) ≠
      .ok "" := by decide

/-- Claim C1 (amended), witnessed at a concrete manifest and a sub-package
target path. -/
theorem C1_witness :
    ModHasMeta (.ok (AddMetaToMod (.wellFormed mfOneDirect)
      "example.com/foo/sub/pkg" okEnv).2) = .ok true ∧
    ModDirectPackage (.ok (AddMetaToMod (.wellFormed mfOneDirect)
      "example.com/foo/sub/pkg" okEnv).2) = .ok "example.com/foo/sub/pkg" :=
  C1_roundtrip mfOneDirect "example.com/foo/sub/pkg" okEnv [] reqFoo []
    rfl (by decide) rfl (by decide) rfl (by decide) (by decide) (by decide) (by decide)

/-- C6 (amended): on an un-annotated manifest whose first non-indirect
requirement's module path equals the target package path *and whose line
carries no trailing comments*, `AddMetaToMod` appends only the meta
marker to the module line, leaves the requirement list unchanged (no
sub-package comment anywhere), and a subsequent `ModDirectPackage`
returns exactly that module path.  The original claim, which allowed
pre-existing requirement-line comments, is refuted by
`C6_counterexample`. -/
theorem C6_equal_path (m : ModFile) (pkg : String) (env : IOEnv)
    (pre : List Require) (r : Require) (post : List Require)
    (hreq : m.require = pre ++ r :: post)
    (hpre : ∀ x ∈ pre, x.indirect = true)
    (hr : r.indirect = false)
    (hsuf : r.suffix = [])
    (hmp : r.modPath = pkg)
    (hmeta : ¬∃ c ∈ m.moduleSuffix, c.token = metaComment)
    (ho : env.openFails = false) (hrd : env.readFails = false)
    (hf : env.formatFails = false) (ht : env.truncateFails = false)
    (hs : env.seekFails = false) (hw : env.writeFails = false)
    (hc : env.closeFails = false) :
    AddMetaToMod (.wellFormed m) pkg env =
      (.ok (), .wellFormed { moduleSuffix := m.moduleSuffix ++ [metaC],
                             require := pre ++ r :: post }) ∧
    ModDirectPackage (.ok (AddMetaToMod (.wellFormed m) pkg env).2) =
      .ok r.modPath := by
  have hmetaB : hasMetaLoop m.moduleSuffix = false := by
    cases h : hasMetaLoop m.moduleSuffix
    · rfl
    · exact absurd ((hasMetaLoop_eq_true_iff _).mp h) hmeta
  have hmain : AddMetaToMod (.wellFormed m) pkg env =
      (.ok (), .wellFormed { moduleSuffix := m.moduleSuffix ++ [metaC],
                             require := pre ++ r :: post }) := by
    rw [addMeta_noclose _ _ _ ho hc, addMetaBody_loop m pkg env hrd hmetaB, hreq,
      requireLoop_skip pkg env _ _ pre [] (r :: post) hpre,
      requireLoop_commit pkg env _ _ _ r post hr hf ht hs hw r (by rw [if_pos hmp])]
    simp
  refine ⟨hmain, ?_⟩
  rw [hmain, modDirect_wf, directLoop_skip pre hpre, directLoop_cons,
    if_neg (by rw [hr]; simp), hsuf]

/-- Claim C6 as stated is false when the requirement line already carries
a trailing comment: `AddMetaToMod` succeeds and adds no sub-package
comment, but `ModDirectPackage` then decodes the pre-existing comment and
does not return the module path. -/
theorem C6_counterexample :
    (AddMetaToMod (.wellFormed mfCommented) "example.com/foo" okEnv).1 = .ok () ∧
    ModDirectPackage (.ok (AddMetaToMod (.wellFormed mfCommented)
      "example.com/foo" okEnv).2) ≠ .ok "example.com/foo" := by decide

/-- Claim C6 (amended), witnessed at a concrete manifest. -/
theorem C6_witness :
    AddMetaToMod (.wellFormed mfOneDirect) "example.com/foo" okEnv =
      (.ok (), .wellFormed { moduleSuffix := ([] : List Comment) ++ [metaC],
                             require := [] ++ reqFoo :: [] }) ∧
    ModDirectPackage (.ok (AddMetaToMod (.wellFormed mfOneDirect)
      "example.com/foo" okEnv).2) = .ok reqFoo.modPath :=
  C6_equal_path mfOneDirect "example.com/foo" okEnv [] reqFoo []
    rfl (by decide) rfl rfl rfl (by decide) rfl rfl rfl rfl rfl rfl rfl

/-- C7 (amended): on an un-annotated manifest whose first non-indirect
requirement has module path example.com/foo *and no trailing comments*,
`AddMetaToMod` with target example.com/foo/sub/pkg appends to that
requirement line a trailing comment whose payload after the 3-character
prefix decodes to sub/pkg, and `ModDirectPackage` on the result returns
example.com/foo/sub/pkg.  The original claim, which allowed pre-existing
requirement-line comments, is refuted by `C7_counterexample`. -/
theorem C7_subpackage (m : ModFile) (env : IOEnv)
    (pre : List Require) (r : Require) (post : List Require)
    (hreq : m.require = pre ++ r :: post)
    (hpre : ∀ x ∈ pre, x.indirect = true)
    (hr : r.indirect = false)
    (hsuf : r.suffix = [])
    (hmp : r.modPath = "example.com/foo")
    (hmeta : ¬∃ c ∈ m.moduleSuffix, c.token = metaComment)
    (ho : env.openFails = false) (hrd : env.readFails = false)
    (hf : env.formatFails = false) (ht : env.truncateFails = false)
    (hs : env.seekFails = false) (hw : env.writeFails = false)
    (hc : env.closeFails = false) :
    AddMetaToMod (.wellFormed m) "example.com/foo/sub/pkg" env =
      (.ok (), .wellFormed { moduleSuffix := m.moduleSuffix ++ [metaC],
                             require := pre ++
                               { r with suffix :=
                                 r.suffix ++ [subComment "sub/pkg"] } :: post }) ∧
    goSliceFrom (subComment "sub/pkg").token 3 = some "sub/pkg" ∧
    ModDirectPackage (.ok (AddMetaToMod (.wellFormed m)
      "example.com/foo/sub/pkg" env).2) = .ok "example.com/foo/sub/pkg" := by
  have hmetaB : hasMetaLoop m.moduleSuffix = false := by
    cases h : hasMetaLoop m.moduleSuffix
    · rfl
    · exact absurd ((hasMetaLoop_eq_true_iff _).mp h) hmeta
  have hstep : (if r.modPath = "example.com/foo/sub/pkg" then Except.ok r
      else
        match filepathRelS r.modPath "example.com/foo/sub/pkg" with
        | .error _ => Except.error GoErr.relError
        | .ok sub =>
          Except.ok { r with suffix := r.suffix ++ [subComment sub] }) =
      .ok { r with suffix := r.suffix ++ [subComment "sub/pkg"] } := by
    rw [if_neg (by rw [hmp]; decide), hmp,
      (show filepathRelS "example.com/foo" "example.com/foo/sub/pkg" =
        .ok "sub/pkg" by decide)]
  have hmain : AddMetaToMod (.wellFormed m) "example.com/foo/sub/pkg" env =
      (.ok (), .wellFormed { moduleSuffix := m.moduleSuffix ++ [metaC],
                             require := pre ++
                               { r with suffix :=
                                 r.suffix ++ [subComment "sub/pkg"] } :: post }) := by
    rw [addMeta_noclose _ _ _ ho hc,
      addMetaBody_loop m "example.com/foo/sub/pkg" env hrd hmetaB, hreq,
      requireLoop_skip "example.com/foo/sub/pkg" env _ _ pre [] (r :: post) hpre,
      requireLoop_commit "example.com/foo/sub/pkg" env _ _ _ r post hr hf ht hs hw
        _ hstep]
    simp
  refine ⟨hmain, goSliceFrom_subComment "sub/pkg", ?_⟩
  rw [hmain, modDirect_wf, directLoop_skip pre hpre, directLoop_cons,
    if_neg (by simp [hr]), hsuf, List.nil_append]
  show (match goSliceFrom (subComment "sub/pkg").token 3 with
        | some t => Outcome.ok (pathJoinS r.modPath t)
        | none => Outcome.panicked) = Outcome.ok "example.com/foo/sub/pkg"
  rw [goSliceFrom_subComment, hmp]
  show Outcome.ok (pathJoinS "example.com/foo" "sub/pkg") =
    Outcome.ok "example.com/foo/sub/pkg"
  decide

/-- Claim C7 as stated is false when the requirement line already carries
a trailing comment: the sub-package comment is appended after it, so
`ModDirectPackage` decodes the pre-existing first comment instead. -/
theorem C7_counterexample :
    (AddMetaToMod (.wellFormed mfCommented) "example.com/foo/sub/pkg" okEnv).1 =
      .ok () ∧
    ModDirectPackage (.ok (AddMetaToMod (.wellFormed mfCommented)
      "example.com/foo/sub/pkg" okEnv).2) ≠ .ok "example.com/foo/sub/pkg" := by
  decide

/-- Claim C7 (amended), witnessed at a concrete manifest. -/
theorem C7_witness :
    AddMetaToMod (.wellFormed mfOneDirect) "example.com/foo/sub/pkg" okEnv =
      (.ok (), .wellFormed { moduleSuffix := ([] : List Comment) ++ [metaC],
                             require := [] ++
                               { reqFoo with suffix :=
                                 reqFoo.suffix ++ [subComment "sub/pkg"] } :: [] }) ∧
    goSliceFrom (subComment "sub/pkg").token 3 = some "sub/pkg" ∧
    ModDirectPackage (.ok (AddMetaToMod (.wellFormed mfOneDirect)
      "example.com/foo/sub/pkg" okEnv).2) = .ok "example.com/foo/sub/pkg" :=
  C7_subpackage mfOneDirect okEnv [] reqFoo []
    rfl (by decide) rfl rfl rfl (by decide) rfl rfl rfl rfl rfl rfl rfl

/-- C8: for every manifest with at least one non-indirect requirement, a
successful `AddMetaToMod` rewrites only the first one in declaration
order: the rewritten file keeps every earlier (indirect) entry and every
later entry — indirect or direct — byte-for-byte, the processed entry
keeps its module path and indirect flag and only gains appended trailing
comments, and `ModDirectPackage` computes the same answer as on a
manifest containing only that first direct entry. -/
theorem C8_first_direct_only (m : ModFile) (pkg : String) (env : IOEnv)
    (pre : List Require) (r : Require) (post : List Require)
    (hreq : m.require = pre ++ r :: post)
    (hpre : ∀ x ∈ pre, x.indirect = true)
    (hr : r.indirect = false)
    (hsucc : (AddMetaToMod (.wellFormed m) pkg env).1 = .ok ()) :
    (∃ r2, r2.modPath = r.modPath ∧ r2.indirect = r.indirect ∧
        (∃ tail, r2.suffix = r.suffix ++ tail) ∧
        (AddMetaToMod (.wellFormed m) pkg env).2 =
          .wellFormed { moduleSuffix := m.moduleSuffix ++ [metaC],
                        require := pre ++ r2 :: post }) ∧
    ModDirectPackage (.ok (.wellFormed m)) =
      ModDirectPackage (.ok (.wellFormed { moduleSuffix := m.moduleSuffix,
                                           require := [r] })) := by
  obtain ⟨hmeta, r2, hchar, heq⟩ := addMeta_ok_inv m pkg env pre r post hreq hpre hr hsucc
  constructor
  · refine ⟨r2, ?_, ?_, ?_, by rw [heq]⟩
    · rcases hchar with ⟨_, h⟩ | ⟨_, sub, _, h⟩ <;> rw [h]
    · rcases hchar with ⟨_, h⟩ | ⟨_, sub, _, h⟩ <;> rw [h]
    · rcases hchar with ⟨_, h⟩ | ⟨_, sub, _, h⟩
      · exact ⟨[], by rw [h]; simp⟩
      · exact ⟨[subComment sub], by rw [h]⟩
  · rw [modDirect_wf, modDirect_wf, hreq, directLoop_skip pre hpre,
      directLoop_cons, directLoop_cons, if_neg (by rw [hr]; simp),
      if_neg (by rw [hr]; simp)]

/-- Claim C8, witnessed at a manifest with an indirect entry before and a
second direct entry after the first direct requirement. -/
theorem C8_witness :
    (∃ r2, r2.modPath = reqFoo.modPath ∧ r2.indirect = reqFoo.indirect ∧
        (∃ tail, r2.suffix = reqFoo.suffix ++ tail) ∧
        (AddMetaToMod (.wellFormed mfMixed) "example.com/foo" okEnv).2 =
          .wellFormed { moduleSuffix := mfMixed.moduleSuffix ++ [metaC],
                        require := [reqBarIndirect] ++ r2 :: [reqCDirect] }) ∧
    ModDirectPackage (.ok (.wellFormed mfMixed)) =
      ModDirectPackage (.ok (.wellFormed { moduleSuffix := mfMixed.moduleSuffix,
                                           require := [reqFoo] })) :=
  C8_first_direct_only mfMixed "example.com/foo" okEnv
    [reqBarIndirect] reqFoo [reqCDirect] rfl (by decide) rfl (by decide)

/-- C9: in `AddMetaToMod`, after a successful open, a failing deferred
close turns an otherwise successful run into the close error, wraps an
already-failed run's error so that both the original cause and the close
failure are reported, and a succeeding close returns the body's result
untouched. -/
theorem C9_close_merge (content : Content) (pkg : String) (env : IOEnv)
    (ho : env.openFails = false) :
    ((AddMetaToMod content pkg { env with closeFails := false }).1 = .ok () →
      (AddMetaToMod content pkg { env with closeFails := true }).1 =
        .err .closeError) ∧
    (∀ e, (AddMetaToMod content pkg { env with closeFails := false }).1 = .err e →
      (AddMetaToMod content pkg { env with closeFails := true }).1 =
        .err (.wrapClose e)) ∧
    (AddMetaToMod content pkg { env with closeFails := false }).1 =
      (addMetaBody content pkg env).1 := by
  have hsplit := addMeta_close_split content pkg env ho
  refine ⟨?_, ?_, ?_⟩
  · intro h
    rw [hsplit false] at h
    rw [hsplit true]
    have h2 : closeWrap (addMetaBody content pkg env).1 false = .ok () := h
    rw [closeWrap_false] at h2
    show closeWrap (addMetaBody content pkg env).1 true = .err .closeError
    rw [h2]
    rfl
  · intro e h
    rw [hsplit false] at h
    rw [hsplit true]
    have h2 : closeWrap (addMetaBody content pkg env).1 false = .err e := h
    rw [closeWrap_false] at h2
    show closeWrap (addMetaBody content pkg env).1 true = .err (.wrapClose e)
    rw [h2]
    rfl
  · rw [hsplit false]
    exact closeWrap_false _

/-- Claim C9, witnessed: on a run that would succeed, injecting a close
failure makes `AddMetaToMod` report the close error. -/
theorem C9_witness :
    (AddMetaToMod (.wellFormed mfOneDirect) "example.com/foo"
      { okEnv with closeFails := true }).1 = .err .closeError :=
  (C9_close_merge (.wellFormed mfOneDirect) "example.com/foo" okEnv rfl).1 (by decide)
